import Mathlib

/-!
Verification of the layer-synchronization slice of go-spacemesh against its
natural-language specification.

Concrete code embedded from the repository sources:
  * `miner.EpochBeaconProvider.GetBeacon`   (src/unnamed/part_000)
  * `eligibility.vrfMessage` SSZ marshalling (src/hare/eligibility/types_ssz.go)
  * `activation.PostManager`                 (src/activation/post.go)

The Content Fetcher / Layer Fetch Logic / Syncer packages (fetch, layerfetcher,
syncer, mesh) are not among the available sources - only the sync test command
(src/unnamed/part_001) that calls them is.  Those components are modelled from
the specification text, with each such definition carrying a doc comment that
starts with `Modelled from the spec:`.
-/

/-! ## Little-endian byte encodings (encoding/binary, fastssz) -/

/-- `binary.LittleEndian.PutUint64` semantics: the 8-byte little-endian
encoding of `x`, byte `i` holding `x / 256^i % 256`. -/
def putUint64LE (x : Nat) : List Nat :=
  [x % 256, x / 256 % 256, x / 65536 % 256, x / 16777216 % 256,
   x / 4294967296 % 256, x / 1099511627776 % 256,
   x / 281474976710656 % 256, x / 72057594037927936 % 256]

/-- The 4-byte little-endian encoding of `x`, byte `i` holding `x / 256^i % 256`. -/
def putUint32LE (x : Nat) : List Nat :=
  [x % 256, x / 256 % 256, x / 65536 % 256, x / 16777216 % 256]

/-- `ssz.MarshalUint32`: appends the 4-byte little-endian encoding of `x` to `dst`. -/
def marshalUint32 (dst : List Nat) (x : Nat) : List Nat :=
  dst ++ putUint32LE x

/-- `ssz.UnmarshallUint32`: reads a little-endian uint32 from the first 4 bytes. -/
def unmarshallUint32 (buf : List Nat) : Nat :=
  buf.getD 0 0 + buf.getD 1 0 * 256 + buf.getD 2 0 * 65536 + buf.getD 3 0 * 16777216

/-- Little-endian uint64 read from the first 8 bytes (inverse of `putUint64LE`). -/
def unmarshallUint64 (buf : List Nat) : Nat :=
  buf.getD 0 0 + buf.getD 1 0 * 256 + buf.getD 2 0 * 65536 + buf.getD 3 0 * 16777216 +
  buf.getD 4 0 * 4294967296 + buf.getD 5 0 * 1099511627776 +
  buf.getD 6 0 * 281474976710656 + buf.getD 7 0 * 72057594037927936

/-! ## miner.EpochBeaconProvider.GetBeacon (src/unnamed/part_000) -/

/-- `EpochBeaconProvider.GetBeacon`: `ret := make([]byte, 32)` zero-fills 32 bytes,
then `binary.LittleEndian.PutUint64(ret, uint64(epochNumber))` overwrites the
first 8.  `epochNumber` is the value of a `types.EpochID` (a `uint32`). -/
def GetBeacon (epochNumber : Nat) : List Nat :=
  putUint64LE epochNumber ++ List.replicate 24 0

/-! ## eligibility.vrfMessage SSZ (src/hare/eligibility/types_ssz.go) -/

/-- The fastssz error relevant to `vrfMessage.UnmarshalSSZ`: `ssz.ErrSize`. -/
inductive SSZError
  | ErrSize
deriving DecidableEq

/-- `vrfMessage{Beacon uint32; Round uint32; Layer types.LayerID}`; each field is
a 32-bit value, kept as a `Nat` bounded by `2^32` where relevant. -/
structure vrfMessage where
  Beacon : Nat
  Round : Nat
  Layer : Nat
deriving DecidableEq

/-- Modelled from the spec: `types.LayerID`'s generated SSZ methods are not under
the available sources.  `vrfMessage.UnmarshalSSZ` allots the Layer exactly the
4 bytes `buf[8:12]`, and the spec's LayerID is a 32-bit ordinal; its fastssz
marshaller appends the 4-byte little-endian encoding of the wrapped uint32. -/
def layerIDMarshalSSZTo (value : Nat) (dst : List Nat) : List Nat :=
  marshalUint32 dst value

/-- Modelled from the spec: the matching generated unmarshaller, with fastssz's
exact-size check (`ssz.ErrSize` unless the buffer holds exactly 4 bytes). -/
def layerIDUnmarshalSSZ (buf : List Nat) : Except SSZError Nat :=
  if buf.length = 4 then Except.ok (unmarshallUint32 buf) else Except.error SSZError.ErrSize

/-- `vrfMessage.MarshalSSZTo`: `dst = buf`, append Beacon, append Round, then
`v.Layer.MarshalSSZTo(dst)` (whose uint32 marshalling cannot fail). -/
def vrfMessage.MarshalSSZTo (v : vrfMessage) (buf : List Nat) : List Nat :=
  layerIDMarshalSSZTo v.Layer (marshalUint32 (marshalUint32 buf v.Beacon) v.Round)

/-- `vrfMessage.UnmarshalSSZ`: rejects any buffer whose length is not exactly 12
with `ssz.ErrSize`, else reads Beacon from `buf[0:4]`, Round from `buf[4:8]` and
delegates `buf[8:12]` to `v.Layer.UnmarshalSSZ`. -/
def vrfMessage.UnmarshalSSZ (buf : List Nat) : Except SSZError vrfMessage :=
  if buf.length = 12 then
    match layerIDUnmarshalSSZ ((buf.drop 8).take 4) with
    | Except.error e => Except.error e
    | Except.ok l =>
        Except.ok ⟨unmarshallUint32 (buf.take 4), unmarshallUint32 ((buf.drop 4).take 4), l⟩
  else Except.error SSZError.ErrSize

/-! ## Theorems: C8 and C9 -/

theorem unmarshall_putUint32 (x : Nat) (hx : x < 4294967296) :
    unmarshallUint32 (putUint32LE x) = x := by
  simp only [unmarshallUint32, putUint32LE, List.getD_cons_zero, List.getD_cons_succ]
  omega

theorem unmarshall_putUint64 (x : Nat) (hx : x < 18446744073709551616) :
    unmarshallUint64 (putUint64LE x) = x := by
  simp only [unmarshallUint64, putUint64LE, List.getD_cons_zero, List.getD_cons_succ]
  omega

/-- C8: `GetBeacon e` is a 32-byte slice; its first 8 bytes are the little-endian
encoding of `uint64(e)` (they decode back to `e`, and byte `i` is `e / 256^i % 256`),
and bytes 8..31 are all zero.  The result is a pure function of `e` alone. -/
theorem getBeacon_spec (e : Nat) (he : e < 4294967296) :
    (GetBeacon e).length = 32 ∧
    unmarshallUint64 ((GetBeacon e).take 8) = e ∧
    (GetBeacon e).take 8 = putUint64LE e ∧
    (∀ i : Nat, 8 ≤ i → i < 32 → (GetBeacon e).getD i 0 = 0) := by
  refine ⟨?_, ?_, ?_, ?_⟩
  · simp [GetBeacon, putUint64LE]
  · have h8 : (GetBeacon e).take 8 = putUint64LE e := by
      simp [GetBeacon, putUint64LE]
    rw [h8]
    exact unmarshall_putUint64 e (by omega)
  · simp [GetBeacon, putUint64LE]
  · intro i h8 h32
    simp only [GetBeacon, putUint64LE]
    interval_cases i <;> rfl

theorem getBeacon_spec_witness :
    (GetBeacon 5).length = 32 ∧ (GetBeacon 5).getD 20 0 = 0 := by
  have h := getBeacon_spec 5 (by norm_num)
  exact ⟨h.1, h.2.2.2 20 (by norm_num) (by norm_num)⟩

/-- C9: `MarshalSSZTo` appends exactly 12 bytes (4 for Beacon, 4 for Round, 4 for
Layer); `UnmarshalSSZ` applied to the marshalled bytes reconstructs the message
(round-trip identity); and `UnmarshalSSZ` returns `ssz.ErrSize` on every buffer
whose length is not exactly 12. -/
theorem vrfMessage_ssz_roundtrip (v : vrfMessage) (buf : List Nat)
    (hB : v.Beacon < 4294967296) (hR : v.Round < 4294967296) (hL : v.Layer < 4294967296) :
    (vrfMessage.MarshalSSZTo v buf).length = buf.length + 12 ∧
    vrfMessage.UnmarshalSSZ (vrfMessage.MarshalSSZTo v []) = Except.ok v ∧
    (∀ b : List Nat, b.length ≠ 12 → vrfMessage.UnmarshalSSZ b = Except.error SSZError.ErrSize) := by
  refine ⟨?_, ?_, ?_⟩
  · simp [vrfMessage.MarshalSSZTo, layerIDMarshalSSZTo, marshalUint32, putUint32LE]
  · have hm : vrfMessage.MarshalSSZTo v [] =
        putUint32LE v.Beacon ++ (putUint32LE v.Round ++ putUint32LE v.Layer) := by
      simp [vrfMessage.MarshalSSZTo, layerIDMarshalSSZTo, marshalUint32]
    have e1 := unmarshall_putUint32 v.Beacon hB
    have e2 := unmarshall_putUint32 v.Round hR
    have e3 := unmarshall_putUint32 v.Layer hL
    simp only [putUint32LE] at e1 e2 e3
    rw [hm]
    simp only [putUint32LE, vrfMessage.UnmarshalSSZ, layerIDUnmarshalSSZ,
      List.cons_append, List.nil_append, List.length_cons, List.length_nil, List.take_succ_cons,
      List.drop_succ_cons, List.drop_nil, List.take_nil]
    norm_num
    rw [e1, e2, e3]
  · intro b hb
    simp [vrfMessage.UnmarshalSSZ, hb]

theorem vrfMessage_ssz_roundtrip_witness :
    vrfMessage.UnmarshalSSZ (vrfMessage.MarshalSSZTo ⟨1, 2, 3⟩ []) = Except.ok ⟨1, 2, 3⟩ :=
  (vrfMessage_ssz_roundtrip ⟨1, 2, 3⟩ [] (by norm_num) (by norm_num) (by norm_num)).2.1

/-! ## activation.PostManager (src/activation/post.go)

The concurrency-relevant fields of `PostManager` and the atomic statements of
`CreatePostData` and its session goroutine, at the granularity of the Go
statements that touch shared state.  A Go channel instance is identified by a
generation number; `close` of an already-closed (or nil) channel is a runtime
panic, recorded in the `panicked` flag.  Executions are interleavings of the
per-thread statement lists; a schedule step whose guard the real code would
have exited on sets the `stuck` flag, marking the schedule invalid. -/

/-- A Go channel instance: its allocation generation and whether it is closed. -/
structure Chan where
  gen : Nat
  closed : Bool
deriving DecidableEq

/-- `InitStatus` from post.go (StatusIdle, StatusInProgress, StatusCompleted). -/
inductive InitStatus
  | StatusIdle
  | StatusInProgress
  | StatusCompleted
deriving DecidableEq

/-- The shared state of a `PostManager` relevant to session lifecycle:
`initStatus`, `startedChan`, `doneChan` (nil until first session, hence
`Option`), `initCompletedChan`; plus bookkeeping for channel generations and
the two execution flags described above. -/
structure PMState where
  initStatus : InitStatus
  startedChan : Chan
  doneChan : Option Chan
  initCompletedChan : Chan
  nextGen : Nat
  panicked : Bool
  stuck : Bool
deriving DecidableEq

/-- `NewPostManager` (post.go:123-149): status Idle, fresh `initCompletedChan`
and `startedChan`; `doneChan` is left nil (the Go zero value). -/
def newPostManager : PMState :=
  { initStatus := InitStatus.StatusIdle
    startedChan := ⟨0, false⟩
    doneChan := none
    initCompletedChan := ⟨1, false⟩
    nextGen := 2
    panicked := false
    stuck := false }

/-- The atomic statements of `CreatePostData` and of its session goroutine that
touch the shared `PostManager` state (post.go line numbers in `pmStep`). -/
inductive PMAction
  | guardAndSetInProgress
  | newInitializerOk
  | closeStartedChan
  | makeDoneChan
  | sessionSetIdle
  | sessionSetCompleted
  | closeInitCompletedChan
  | deferReplaceStartedChan
  | deferCloseDoneChan
deriving DecidableEq

/-- Close a channel: a second close of the same instance is a Go runtime panic. -/
def closeChan (c : Chan) : Chan × Bool :=
  (⟨c.gen, true⟩, c.closed)

/-- One atomic statement applied to the shared state.  After a panic the Go
process is dead, so the state freezes; likewise after `stuck` marks a schedule
that disagrees with the code's control flow.

  * `guardAndSetInProgress` - post.go:180-196, the whole `initStatusMtx`
    critical section (it is atomic because the mutex is held throughout).  If
    the status is `StatusInProgress` the call returns an error, and if
    `StatusCompleted` it returns early or follows the invalidation path;
    neither is exercised by the schedules below, so both mark `stuck`.
  * `newInitializerOk` - post.go:203-228 when `NewInitializer` succeeds and
    `opts.ComputeProviderID != BestProviderID`: only writes `mgr.init`,
    `mgr.cfg`, `mgr.lastOpts`, `mgr.lastErr`, none of which is modelled.
  * `closeStartedChan` - post.go:230, `close(mgr.startedChan)`, not under any
    mutex.
  * `makeDoneChan` - post.go:231, `mgr.doneChan = make(chan struct\x7b\x7d)`.
  * `sessionSetIdle` - post.go:251, the goroutine's `mgr.initStatus =
    StatusIdle` after `Initialize` fails or is stopped (no mutex held).
  * `sessionSetCompleted` - post.go:262, `mgr.initStatus = StatusCompleted`.
  * `closeInitCompletedChan` - post.go:263.
  * `deferReplaceStartedChan` - post.go:234, the deferred
    `mgr.startedChan = make(chan struct\x7b\x7d)`.
  * `deferCloseDoneChan` - post.go:235, the deferred `close(mgr.doneChan)`. -/
def pmStep (s : PMState) (a : PMAction) : PMState :=
  if s.panicked ∨ s.stuck then s else
  match a with
  | PMAction.guardAndSetInProgress =>
      match s.initStatus with
      | InitStatus.StatusInProgress => { s with stuck := true }
      | InitStatus.StatusCompleted => { s with stuck := true }
      | InitStatus.StatusIdle => { s with initStatus := InitStatus.StatusInProgress }
  | PMAction.newInitializerOk => s
  | PMAction.closeStartedChan =>
      let (c, wasClosed) := closeChan s.startedChan
      if wasClosed then { s with panicked := true } else { s with startedChan := c }
  | PMAction.makeDoneChan =>
      { s with doneChan := some ⟨s.nextGen, false⟩, nextGen := s.nextGen + 1 }
  | PMAction.sessionSetIdle => { s with initStatus := InitStatus.StatusIdle }
  | PMAction.sessionSetCompleted => { s with initStatus := InitStatus.StatusCompleted }
  | PMAction.closeInitCompletedChan =>
      let (c, wasClosed) := closeChan s.initCompletedChan
      if wasClosed then { s with panicked := true } else { s with initCompletedChan := c }
  | PMAction.deferReplaceStartedChan =>
      { s with startedChan := ⟨s.nextGen, false⟩, nextGen := s.nextGen + 1 }
  | PMAction.deferCloseDoneChan =>
      match s.doneChan with
      | none => { s with panicked := true }
      | some c => if c.closed then { s with panicked := true }
                  else { s with doneChan := some ⟨c.gen, true⟩ }

/-- Run a schedule of atomic statements from a state. -/
def pmRun (s : PMState) (as : List PMAction) : PMState :=
  as.foldl pmStep s

/-- The shared-state statements of one `CreatePostData` call in which
`NewInitializer` succeeds and a concrete compute provider is given, in program
order (post.go:180-231). -/
def createPostDataSteps : List PMAction :=
  [PMAction.guardAndSetInProgress, PMAction.newInitializerOk,
   PMAction.closeStartedChan, PMAction.makeDoneChan]

/-- The shared-state statements of the session goroutine when `Initialize`
returns an error (post.go:245-252 then the deferred post.go:233-236), in
program order. -/
def sessionFailSteps : List PMAction :=
  [PMAction.sessionSetIdle, PMAction.deferReplaceStartedChan, PMAction.deferCloseDoneChan]

/-- A legal interleaving of three threads: thread 0 is a first `CreatePostData`
call that starts a session whose `Initialize` fails; thread 1 is that session's
goroutine; thread 2 is a second `CreatePostData` call that enters after the
goroutine has already set `initStatus = StatusIdle` (post.go:251) but before
the deferred replacement of `startedChan` (post.go:234) has run.  Thread 2
reaches `close(mgr.startedChan)` (post.go:230) while `startedChan` is still the
instance thread 0 already closed. -/
def racySchedule : List (Nat × PMAction) :=
  (createPostDataSteps.map (fun a => (0, a))) ++
  [(1, PMAction.sessionSetIdle)] ++
  [(2, PMAction.guardAndSetInProgress), (2, PMAction.newInitializerOk),
   (2, PMAction.closeStartedChan)]

/-- The statements a given thread contributes to a schedule. -/
def threadSteps (sched : List (Nat × PMAction)) (t : Nat) : List PMAction :=
  sched.filterMap (fun q => if q.1 = t then some q.2 else none)

/-- C7 fails on the code: `racySchedule` is a legal interleaving (each thread's
projection is its program or the prefix of it executed up to the crash), every
executed statement follows the code's control flow (`stuck = false`), and it
ends with `close` called on an already-closed `startedChan` - a Go runtime
panic (`panicked = true`).  So the started-event channel of a session can be
closed a second time before being replaced by a fresh channel, contradicting
the claim that it is resolved exactly once per session. -/
theorem createPostData_startedChan_double_close :
    threadSteps racySchedule 0 = createPostDataSteps ∧
    threadSteps racySchedule 1 = sessionFailSteps.take 1 ∧
    threadSteps racySchedule 2 = createPostDataSteps.take 3 ∧
    (pmRun newPostManager (racySchedule.map Prod.snd)).panicked = true ∧
    (pmRun newPostManager (racySchedule.map Prod.snd)).stuck = false := by
  decide

/-! ## PostManager.GenerateProof (post.go:332-358) -/

/-- Errors surfaced by `GenerateProof`: `errNotCompleted` (post.go:152) and the
errors of the external prover (`proving.NewProver` / `prover.GenerateProof`),
abstracted by a code. -/
inductive PostError
  | errNotCompleted
  | proverError (code : Nat)
deriving DecidableEq

/-- `PostManager.GenerateProof`: if `mgr.initStatus != StatusCompleted` it
returns `(nil, nil, errNotCompleted)`; otherwise the proof and metadata are
whatever the external prover produces (`proverResult`, covering the error
paths of `NewProver` and `prover.GenerateProof`).  The method writes no field
of `mgr`, so the manager state is returned unchanged on every path; a `nil`
proof and metadata pair is the `Except.error` case. -/
def GenerateProof (proverResult : Except PostError (Nat × Nat)) (mgr : PMState) :
    Except PostError (Nat × Nat) × PMState :=
  if mgr.initStatus ≠ InitStatus.StatusCompleted then
    (Except.error PostError.errNotCompleted, mgr)
  else (proverResult, mgr)

/-- C10: calling `GenerateProof` while `initStatus` is not `StatusCompleted`
returns nil proof, nil metadata and `errNotCompleted`, leaving the manager's
observable state unchanged; and a proof is only ever produced (an `ok` result)
when initialization has completed, again with the state unchanged. -/
theorem generateProof_requires_completed (pr : Except PostError (Nat × Nat)) (mgr : PMState)
    (hne : mgr.initStatus ≠ InitStatus.StatusCompleted) :
    GenerateProof pr mgr = (Except.error PostError.errNotCompleted, mgr) ∧
    (∀ (pr2 : Except PostError (Nat × Nat)) (m : PMState) (res : Nat × Nat) (m' : PMState),
      GenerateProof pr2 m = (Except.ok res, m') →
      m.initStatus = InitStatus.StatusCompleted ∧ m' = m) := by
  constructor
  · simp [GenerateProof, hne]
  · intro pr2 m res m' hg
    by_cases hc : m.initStatus = InitStatus.StatusCompleted
    · refine ⟨hc, ?_⟩
      simp only [GenerateProof, hc] at hg
      simp at hg
      exact hg.2.symm
    · simp [GenerateProof, hc] at hg

theorem generateProof_requires_completed_witness :
    GenerateProof (Except.ok (7, 9)) newPostManager =
      (Except.error PostError.errNotCompleted, newPostManager) :=
  (generateProof_requires_completed (Except.ok (7, 9)) newPostManager (by decide)).1

/-! ## Content Fetcher request deduplication

Modelled from the spec: the `fetch` package is not under the available sources.
Spec 4.1: "if N callers request the same hash before resolution, exactly one
peer round-trip sequence is issued; all N receive the identical outcome";
spec 5: insertion of a new in-flight entry and lookup-or-join of an existing
one is atomic as a single operation.  The model below is that atomic in-flight
table: a `request` joins an existing entry or creates one (starting the single
round-trip sequence), and the resolution of a hash delivers one outcome to
every waiter and releases the entry. -/

/-- Modelled from the spec: the outcome all waiters of a hash receive - a
payload, or a terminal error kind (spec 7: `ErrNotAvailable`, `CorruptData`). -/
inductive FetchOutcome
  | payload (bytes : Nat)
  | errNotAvailable
  | corruptData
deriving DecidableEq

/-- Modelled from the spec: the operations on the in-flight table - a caller
submits a request for a hash, or the single round-trip sequence for a hash
resolves with an outcome. -/
inductive FetchOp
  | request (caller hash : Nat)
  | resolve (hash : Nat) (outcome : FetchOutcome)
deriving DecidableEq

/-- Observable events: a peer round-trip sequence is started for a hash, or an
outcome is delivered to a waiting caller. -/
inductive FetchEvent
  | roundTripStarted (hash : Nat)
  | delivered (caller hash : Nat) (outcome : FetchOutcome)
deriving DecidableEq

/-- The in-flight request table: hash to the list of waiting callers. -/
def FetchTable : Type := Nat → Option (List Nat)

/-- The table of a freshly started fetcher: no hash in flight. -/
def emptyFetchTable : FetchTable := fun _ => none

/-- Modelled from the spec: one atomic table operation.  A request for a hash
already in flight joins its waiter list (no new round-trip); a request for an
un-requested hash creates the entry and starts the one round-trip sequence; a
resolution delivers its outcome to every waiter and removes the entry. -/
def fetchStep (s : FetchTable) : FetchOp → FetchTable × List FetchEvent
  | FetchOp.request c h =>
    match s h with
    | some ws => (fun k => if k = h then some (c :: ws) else s k, [])
    | none => (fun k => if k = h then some [c] else s k, [FetchEvent.roundTripStarted h])
  | FetchOp.resolve h o =>
    match s h with
    | some ws => (fun k => if k = h then none else s k,
        ws.map (fun c => FetchEvent.delivered c h o))
    | none => (s, [])

/-- Run a sequence of operations from a table, collecting events in order. -/
def fetchRun (s : FetchTable) : List FetchOp → FetchTable × List FetchEvent
  | [] => (s, [])
  | op :: ops =>
    let p := fetchStep s op
    let q := fetchRun p.1 ops
    (q.1, p.2 ++ q.2)

/-- The hash an operation is about. -/
def opHash : FetchOp → Nat
  | FetchOp.request _ h => h
  | FetchOp.resolve h _ => h

/-- The hash an event is about. -/
def eventHash : FetchEvent → Nat
  | FetchEvent.roundTripStarted h => h
  | FetchEvent.delivered _ h _ => h

/-- Single-hash projection of `fetchStep`: only the waiter list of the one hash. -/
def projStep (w : Option (List Nat)) : FetchOp → Option (List Nat) × List FetchEvent
  | FetchOp.request c h =>
    match w with
    | some ws => (some (c :: ws), [])
    | none => (some [c], [FetchEvent.roundTripStarted h])
  | FetchOp.resolve h o =>
    match w with
    | some ws => (none, ws.map (fun c => FetchEvent.delivered c h o))
    | none => (none, [])

/-- Single-hash projection of `fetchRun`. -/
def projRun (w : Option (List Nat)) : List FetchOp → Option (List Nat) × List FetchEvent
  | [] => (w, [])
  | op :: ops =>
    let p := projStep w op
    let q := projRun p.1 ops
    (q.1, p.2 ++ q.2)

/-- A step on the tracked hash acts like its single-hash projection. -/
theorem fetchStep_touching (s : FetchTable) (op : FetchOp) (h : Nat) (hop : opHash op = h) :
    (fetchStep s op).1 h = (projStep (s h) op).1 ∧
    ((fetchStep s op).2).filter (fun e => eventHash e == h) = (projStep (s h) op).2 := by
  cases op with
  | request c k =>
    simp only [opHash] at hop
    subst hop
    cases hw : s k with
    | some ws => simp [fetchStep, projStep, hw]
    | none => simp [fetchStep, projStep, hw, eventHash]
  | resolve k o =>
    simp only [opHash] at hop
    subst hop
    cases hw : s k with
    | some ws =>
      refine ⟨by simp [fetchStep, hw, projStep], ?_⟩
      simp only [fetchStep, hw, projStep]
      rw [List.filter_eq_self]
      intro e he
      obtain ⟨c, _, rfl⟩ := List.mem_map.mp he
      simp [eventHash]
    | none => simp [fetchStep, projStep, hw]

/-- A step on a different hash leaves the tracked hash untouched and emits no
event about it. -/
theorem fetchStep_other (s : FetchTable) (op : FetchOp) (h : Nat) (hop : opHash op ≠ h) :
    (fetchStep s op).1 h = s h ∧
    ((fetchStep s op).2).filter (fun e => eventHash e == h) = [] := by
  cases op with
  | request c k =>
    simp only [opHash] at hop
    cases hw : s k with
    | some ws => simp [fetchStep, hw, hop, Ne.symm hop]
    | none => simp [fetchStep, hw, hop, Ne.symm hop, eventHash]
  | resolve k o =>
    simp only [opHash] at hop
    cases hw : s k with
    | some ws =>
      refine ⟨by simp [fetchStep, hw, Ne.symm hop], ?_⟩
      simp only [fetchStep, hw]
      rw [List.filter_eq_nil_iff]
      intro e he
      obtain ⟨c, _, rfl⟩ := List.mem_map.mp he
      simp [eventHash, hop]
    | none => simp [fetchStep, hw]

/-- The behaviour of a run at one hash depends only on the operations that
touch that hash. -/
theorem fetchRun_proj (h : Nat) (ops : List FetchOp) (s : FetchTable) :
    (fetchRun s ops).1 h = (projRun (s h) (ops.filter (fun op => opHash op == h))).1 ∧
    ((fetchRun s ops).2).filter (fun e => eventHash e == h) =
      (projRun (s h) (ops.filter (fun op => opHash op == h))).2 := by
  induction ops generalizing s with
  | nil => simp [fetchRun, projRun]
  | cons op ops ih =>
    by_cases hop : opHash op = h
    · have hfil : (op :: ops).filter (fun op => opHash op == h) =
          op :: ops.filter (fun op => opHash op == h) := by
        simp [List.filter_cons, hop]
      have hstep := fetchStep_touching s op h hop
      have ihs := ih (fetchStep s op).1
      constructor
      · rw [hfil]
        simp only [fetchRun, projRun]
        rw [ihs.1, hstep.1]
      · rw [hfil]
        simp only [fetchRun, projRun, List.filter_append]
        rw [ihs.2, hstep.2, hstep.1]
    · have hfil : (op :: ops).filter (fun op => opHash op == h) =
          ops.filter (fun op => opHash op == h) := by
        simp [List.filter_cons, hop]
      have hstep := fetchStep_other s op h hop
      have ihs := ih (fetchStep s op).1
      constructor
      · rw [hfil]
        simp only [fetchRun]
        rw [ihs.1, hstep.1]
      · rw [hfil]
        simp only [fetchRun, List.filter_append]
        rw [ihs.2, hstep.2, hstep.1, List.nil_append]

/-- Joining requests only accumulate waiters and start no round-trip. -/
theorem projRun_requests (h : Nat) (callers : List Nat) (ws : List Nat) :
    projRun (some ws) (callers.map (fun c => FetchOp.request c h)) =
      (some (callers.reverse ++ ws), []) := by
  induction callers generalizing ws with
  | nil => simp [projRun]
  | cons c cs ih =>
    simp only [List.map_cons, projRun, projStep, ih (c :: ws), List.reverse_cons,
      List.append_assoc, List.singleton_append, List.nil_append]

/-- A projected run splits over list append. -/
theorem projRun_append (w : Option (List Nat)) (l1 l2 : List FetchOp) :
    projRun w (l1 ++ l2) =
      ((projRun (projRun w l1).1 l2).1,
        (projRun w l1).2 ++ (projRun (projRun w l1).1 l2).2) := by
  induction l1 generalizing w with
  | nil => simp [projRun]
  | cons op l1 ih =>
    simp only [List.cons_append, projRun, List.append_eq, ih, List.append_assoc]

/-- The projected run of N requests followed by the resolution: one round-trip
started, then one delivery of the same outcome per caller. -/
theorem projRun_shape (h : Nat) (o : FetchOutcome) (c0 : Nat) (cs : List Nat) :
    projRun none ((c0 :: cs).map (fun c => FetchOp.request c h) ++ [FetchOp.resolve h o]) =
      (none, FetchEvent.roundTripStarted h ::
        ((c0 :: cs).reverse.map (fun c => FetchEvent.delivered c h o))) := by
  have h1 : (c0 :: cs).map (fun c => FetchOp.request c h) =
      FetchOp.request c0 h :: cs.map (fun c => FetchOp.request c h) := by simp
  rw [h1, List.cons_append]
  simp only [projRun, projStep]
  rw [projRun_append, projRun_requests h cs [c0]]
  simp only [projRun, projStep, List.reverse_cons, List.append_nil, List.nil_append,
    List.singleton_append]

/-- C1: in any operation sequence in which the requests touching hash `h` are
those of the callers in `callers` (N of them, N at least 1), all submitted
before the first resolution of `h`, exactly one peer round-trip sequence is
issued for `h`, every caller receives the outcome of that single resolution,
and nothing else is delivered for `h`: all N callers observe the identical
outcome. -/
theorem fetch_dedup_single_roundtrip (ops : List FetchOp) (h : Nat) (o : FetchOutcome)
    (callers : List Nat) (hc : callers ≠ [])
    (hproj : ops.filter (fun op => opHash op == h) =
      callers.map (fun c => FetchOp.request c h) ++ [FetchOp.resolve h o]) :
    ((fetchRun emptyFetchTable ops).2).count (FetchEvent.roundTripStarted h) = 1 ∧
    (∀ c, c ∈ callers → FetchEvent.delivered c h o ∈ (fetchRun emptyFetchTable ops).2) ∧
    (∀ c o', FetchEvent.delivered c h o' ∈ (fetchRun emptyFetchTable ops).2 →
      o' = o ∧ c ∈ callers) := by
  obtain ⟨c0, cs, rfl⟩ : ∃ c0 cs, callers = c0 :: cs := by
    cases callers with
    | nil => exact absurd rfl hc
    | cons a l => exact ⟨a, l, rfl⟩
  have hfil := (fetchRun_proj h ops emptyFetchTable).2
  rw [hproj] at hfil
  simp only [emptyFetchTable] at hfil
  rw [projRun_shape h o c0 cs] at hfil
  set evs := (fetchRun emptyFetchTable ops).2 with hevs
  have hcount : evs.count (FetchEvent.roundTripStarted h) =
      (evs.filter (fun e => eventHash e == h)).count (FetchEvent.roundTripStarted h) := by
    rw [List.count_filter]
    simp [eventHash]
  refine ⟨?_, ?_, ?_⟩
  · rw [hcount, hfil]
    rw [List.count_cons]
    simp only [beq_self_eq_true, if_true]
    have hz : (((c0 :: cs).reverse.map (fun c => FetchEvent.delivered c h o)).count
        (FetchEvent.roundTripStarted h)) = 0 := by
      rw [List.count_eq_zero]
      intro hmem
      obtain ⟨c, _, hc2⟩ := List.mem_map.mp hmem
      exact FetchEvent.noConfusion hc2
    omega
  · intro c hcmem
    have hmemf : FetchEvent.delivered c h o ∈ evs.filter (fun e => eventHash e == h) := by
      rw [hfil]
      exact List.mem_cons_of_mem _
        (List.mem_map.mpr ⟨c, List.mem_reverse.mpr hcmem, rfl⟩)
    exact List.mem_of_mem_filter hmemf
  · intro c o' hmem
    have hmf : FetchEvent.delivered c h o' ∈ evs.filter (fun e => eventHash e == h) := by
      rw [List.mem_filter]
      exact ⟨hmem, by simp [eventHash]⟩
    rw [hfil] at hmf
    rcases List.mem_cons.mp hmf with heq | hmap
    · exact absurd heq (by simp)
    · obtain ⟨c2, hc2, heq⟩ := List.mem_map.mp hmap
      obtain ⟨h1, h2, h3⟩ : c2 = c ∧ h = h ∧ o = o' := by
        injection heq with a1 a2 a3
        exact ⟨a1, a2, a3⟩
      subst h1
      subst h3
      exact ⟨rfl, List.mem_reverse.mp hc2⟩

/-- Witness: two callers request hash 5 (with an unrelated request for hash 6
interleaved); both are delivered the one payload. -/
theorem fetch_dedup_single_roundtrip_witness :
    FetchEvent.delivered 2 5 (FetchOutcome.payload 9) ∈
      (fetchRun emptyFetchTable [FetchOp.request 1 5, FetchOp.request 7 6,
        FetchOp.request 2 5, FetchOp.resolve 5 (FetchOutcome.payload 9)]).2 :=
  (fetch_dedup_single_roundtrip
    [FetchOp.request 1 5, FetchOp.request 7 6, FetchOp.request 2 5,
     FetchOp.resolve 5 (FetchOutcome.payload 9)]
    5 (FetchOutcome.payload 9) [1, 2] (by decide) (by decide)).2.1 2 (by decide)

/-! ## Content Fetcher peer retry and payload validation

Modelled from the spec: spec 4.1 peer selection and validation - the request is
sent to one candidate peer at a time; on not-found/timeout the hash is retried
against the next candidate; a payload is hashed and compared to the requested
hash, a mismatch is a `CorruptData` error, the offending peer is excluded from
the candidate set for this and subsequent requests within the session, and the
hash is retried against the remaining peers; when candidates are exhausted the
result is `ErrNotAvailable`. -/

/-- Modelled from the spec: a peer's answer for a hash - payload bytes, or
not-found (also standing for a timeout). -/
inductive PeerResponse
  | payload (bytes : Nat)
  | notFound
deriving DecidableEq

/-- The terminal result of one fetch request. -/
inductive FetchResult
  | ok (bytes : Nat)
  | errNotAvailable
deriving DecidableEq

/-- Observable per-request events: a peer was queried; a peer's payload failed
hash validation (`CorruptData`). -/
inductive SessionEvent
  | queried (peer : Nat)
  | corruptData (peer : Nat)
deriving DecidableEq

/-- Modelled from the spec: the per-hash retry loop.  `hashFn` is the local
content-hash function, `resp` the peers' answers, `h` the requested hash; the
loop walks the candidate list, skipping peers already excluded in this session,
and returns the result, the grown exclusion set, and the event log. -/
def fetchFromPeers (hashFn : Nat → Nat) (resp : Nat → PeerResponse) (h : Nat) :
    List Nat → List Nat → FetchResult × List Nat × List SessionEvent
  | [], excluded => (FetchResult.errNotAvailable, excluded, [])
  | p :: rest, excluded =>
    if p ∈ excluded then fetchFromPeers hashFn resp h rest excluded
    else
      match resp p with
      | PeerResponse.notFound =>
        let q := fetchFromPeers hashFn resp h rest excluded
        (q.1, q.2.1, SessionEvent.queried p :: q.2.2)
      | PeerResponse.payload b =>
        if hashFn b = h then (FetchResult.ok b, excluded, [SessionEvent.queried p])
        else
          let q := fetchFromPeers hashFn resp h rest (p :: excluded)
          (q.1, q.2.1, SessionEvent.queried p :: SessionEvent.corruptData p :: q.2.2)

/-- C4: every delivered payload hashes to the requested hash (a mismatched
payload is never delivered); every `CorruptData` event comes from a peer that
supplied a mismatching payload, and that peer ends up in the session's
exclusion set; peers already excluded are never queried again and stay
excluded for subsequent requests; and the hash is retried against the
remaining candidates - if any non-excluded candidate holds a matching
payload, the fetch succeeds despite earlier corrupt responses. -/
theorem fetch_hash_validation (hashFn : Nat → Nat) (resp : Nat → PeerResponse) (h : Nat)
    (cands excl : List Nat) :
    (∀ b, (fetchFromPeers hashFn resp h cands excl).1 = FetchResult.ok b → hashFn b = h) ∧
    (∀ p, SessionEvent.corruptData p ∈ (fetchFromPeers hashFn resp h cands excl).2.2 →
      p ∈ (fetchFromPeers hashFn resp h cands excl).2.1 ∧
      (∃ b, resp p = PeerResponse.payload b ∧ hashFn b ≠ h)) ∧
    (∀ p, p ∈ excl →
      SessionEvent.queried p ∉ (fetchFromPeers hashFn resp h cands excl).2.2 ∧
      p ∈ (fetchFromPeers hashFn resp h cands excl).2.1) ∧
    ((∃ q, q ∈ cands ∧ q ∉ excl ∧ ∃ b, resp q = PeerResponse.payload b ∧ hashFn b = h) →
      ∃ b, (fetchFromPeers hashFn resp h cands excl).1 = FetchResult.ok b) := by
  induction cands generalizing excl with
  | nil =>
    refine ⟨?_, ?_, ?_, ?_⟩
    · intro b hb
      exact absurd hb (by simp [fetchFromPeers])
    · intro p hp
      exact absurd hp (by simp [fetchFromPeers])
    · intro p hp
      exact ⟨by simp [fetchFromPeers], by simpa [fetchFromPeers] using hp⟩
    · rintro ⟨q, hq, -⟩
      exact absurd hq (by simp)
  | cons p rest ih =>
    by_cases hpe : p ∈ excl
    · have hunf : fetchFromPeers hashFn resp h (p :: rest) excl =
          fetchFromPeers hashFn resp h rest excl := by
        simp [fetchFromPeers, hpe]
      rw [hunf]
      refine ⟨(ih excl).1, (ih excl).2.1, (ih excl).2.2.1, ?_⟩
      rintro ⟨q, hq, hqe, b, hresp, hgood⟩
      rcases List.mem_cons.mp hq with rfl | hq2
      · exact absurd hpe hqe
      · exact (ih excl).2.2.2 ⟨q, hq2, hqe, b, hresp, hgood⟩
    · cases hresp : resp p with
      | notFound =>
        have hunf : fetchFromPeers hashFn resp h (p :: rest) excl =
            ((fetchFromPeers hashFn resp h rest excl).1,
             (fetchFromPeers hashFn resp h rest excl).2.1,
             SessionEvent.queried p :: (fetchFromPeers hashFn resp h rest excl).2.2) := by
          simp [fetchFromPeers, hpe, hresp]
        rw [hunf]
        refine ⟨(ih excl).1, ?_, ?_, ?_⟩
        · intro r hr
          simp only [List.mem_cons] at hr
          rcases hr with hr | hr
          · exact absurd hr (by simp)
          · exact (ih excl).2.1 r hr
        · intro r hr
          refine ⟨?_, ((ih excl).2.2.1 r hr).2⟩
          intro hmem
          rcases List.mem_cons.mp hmem with heq | hmem2
          · obtain rfl : r = p := by injection heq
            exact hpe hr
          · exact ((ih excl).2.2.1 r hr).1 hmem2
        · rintro ⟨q, hq, hqe, b, hrespq, hgood⟩
          rcases List.mem_cons.mp hq with rfl | hq2
          · rw [hresp] at hrespq
            exact absurd hrespq (by simp)
          · exact (ih excl).2.2.2 ⟨q, hq2, hqe, b, hrespq, hgood⟩
      | payload b =>
        by_cases hgoodb : hashFn b = h
        · have hunf : fetchFromPeers hashFn resp h (p :: rest) excl =
              (FetchResult.ok b, excl, [SessionEvent.queried p]) := by
            simp [fetchFromPeers, hpe, hresp, hgoodb]
          rw [hunf]
          refine ⟨?_, ?_, ?_, ?_⟩
          · intro b2 hb2
            obtain rfl : b = b2 := by
              injection hb2 with h1
            exact hgoodb
          · intro r hr
            exact absurd hr (by simp)
          · intro r hr
            refine ⟨?_, hr⟩
            intro hmem
            rcases List.mem_cons.mp hmem with heq | hmem2
            · obtain rfl : r = p := by injection heq
              exact hpe hr
            · exact absurd hmem2 (by simp)
          · intro _
            exact ⟨b, rfl⟩
        · have hunf : fetchFromPeers hashFn resp h (p :: rest) excl =
              ((fetchFromPeers hashFn resp h rest (p :: excl)).1,
               (fetchFromPeers hashFn resp h rest (p :: excl)).2.1,
               SessionEvent.queried p :: SessionEvent.corruptData p ::
                 (fetchFromPeers hashFn resp h rest (p :: excl)).2.2) := by
            simp [fetchFromPeers, hpe, hresp, hgoodb]
          rw [hunf]
          have ihp := ih (p :: excl)
          refine ⟨ihp.1, ?_, ?_, ?_⟩
          · intro r hr
            simp only [List.mem_cons] at hr
            rcases hr with hr | hr | hr
            · exact absurd hr (by simp)
            · obtain rfl : r = p := by injection hr
              exact ⟨(ihp.2.2.1 r (by simp)).2, b, hresp, hgoodb⟩
            · exact ihp.2.1 r hr
          · intro r hr
            have hr2 : r ∈ p :: excl := List.mem_cons_of_mem _ hr
            refine ⟨?_, (ihp.2.2.1 r hr2).2⟩
            intro hmem
            rcases List.mem_cons.mp hmem with heq | hmem2
            · obtain rfl : r = p := by injection heq
              exact hpe hr
            · rcases List.mem_cons.mp hmem2 with heq2 | hmem3
              · exact absurd heq2 (by simp)
              · exact (ihp.2.2.1 r hr2).1 hmem3
          · rintro ⟨q, hq, hqe, b2, hrespq, hgood⟩
            rcases List.mem_cons.mp hq with rfl | hq2
            · rw [hresp] at hrespq
              obtain rfl : b = b2 := by injection hrespq
              exact absurd hgood hgoodb
            · refine ihp.2.2.2 ⟨q, hq2, ?_, b2, hrespq, hgood⟩
              intro hqmem
              rcases List.mem_cons.mp hqmem with rfl | hq3
              · rw [hresp] at hrespq
                obtain rfl : b = b2 := by injection hrespq
                exact absurd hgood hgoodb
              · exact hqe hq3

/-- Witness: spec 8 Scenario D - peer 1 supplies a payload whose hash (here the
identity hash) mismatches the requested hash 10; peer 2 holds a matching
payload; the fetch succeeds on retry. -/
theorem fetch_hash_validation_witness :
    ∃ b, (fetchFromPeers (fun x => x)
      (fun p => if p = 1 then PeerResponse.payload 99 else PeerResponse.payload 10)
      10 [1, 2] []).1 = FetchResult.ok b :=
  (fetch_hash_validation (fun x => x)
    (fun p => if p = 1 then PeerResponse.payload 99 else PeerResponse.payload 10)
    10 [1, 2] []).2.2.2 ⟨2, by decide, by decide, 10, by decide, by decide⟩

/-! ## Epoch ATX set memoization

Modelled from the spec: the layerfetcher package is not under the available
sources.  Spec 4.3: before a layer's manifest is processed, the layer's
epoch's ATX set is fetched if it has not been fetched yet; layers within the
same epoch share one ATX fetch, performed at most once per epoch (memoized).
Spec 3: `epoch = layer / layersPerEpoch`. -/

/-- The epoch of a layer: `layer / layersPerEpoch` (spec 3). -/
def epochOf (layersPerEpoch layer : Nat) : Nat := layer / layersPerEpoch

/-- Observable event: the ATX set of an epoch is fetched from peers. -/
inductive AtxEvent
  | atxFetch (epoch : Nat)
deriving DecidableEq

/-- Lookup in the per-epoch memo table. -/
def memoLookup : List (Nat × List Nat) → Nat → Option (List Nat)
  | [], _ => none
  | q :: rest, e => if q.1 = e then some q.2 else memoLookup rest e

/-- Modelled from the spec: obtain the ATX set for an epoch - reuse the
memoized set when present, else fetch it via the locator `locate` (spec 4.2
`EpochATXSetFor`), record the fetch event and memoize the result. -/
def getEpochAtxs (locate : Nat → List Nat) (memo : List (Nat × List Nat)) (e : Nat) :
    List Nat × List (Nat × List Nat) × List AtxEvent :=
  match memoLookup memo e with
  | some s => (s, memo, [])
  | none => (locate e, (e, locate e) :: memo, [AtxEvent.atxFetch e])

/-- Modelled from the spec: fetch a list of layers in order, each one first
securing its epoch ATX set; returns the final memo table, the fetch events,
and which ATX set each layer used. -/
def processLayers (locate : Nat → List Nat) (lpe : Nat) :
    List (Nat × List Nat) → List Nat →
      List (Nat × List Nat) × List AtxEvent × List (Nat × List Nat)
  | memo, [] => (memo, [], [])
  | memo, l :: rest =>
    let g := getEpochAtxs locate memo (epochOf lpe l)
    let q := processLayers locate lpe g.2.1 rest
    (q.1, g.2.2 ++ q.2.1, (l, g.1) :: q.2.2)

/-- Lookup after inserting a memo entry. -/
theorem memoLookup_insert (memo : List (Nat × List Nat)) (e : Nat) (s : List Nat) (k : Nat) :
    memoLookup ((e, s) :: memo) k = if e = k then some s else memoLookup memo k := by
  simp [memoLookup]

/-- Invariant: from a memo whose entries agree with the locator, an epoch is
fetched once when some processed layer needs it and it is not yet memoized,
never more; every layer is assigned the locator set of its own epoch. -/
theorem processLayers_sound (locate : Nat → List Nat) (lpe : Nat) (E : Nat)
    (layers : List Nat) (memo : List (Nat × List Nat))
    (hmemo : ∀ k s, memoLookup memo k = some s → s = locate k) :
    ((processLayers locate lpe memo layers).2.1.count (AtxEvent.atxFetch E) =
      if (∃ l, l ∈ layers ∧ epochOf lpe l = E) ∧ memoLookup memo E = none then 1 else 0) ∧
    (∀ l s, (l, s) ∈ (processLayers locate lpe memo layers).2.2 → s = locate (epochOf lpe l)) ∧
    (∀ k s, memoLookup (processLayers locate lpe memo layers).1 k = some s → s = locate k) := by
  induction layers generalizing memo with
  | nil =>
    refine ⟨?_, ?_, ?_⟩
    · simp [processLayers]
    · intro l s hls
      exact absurd hls (by simp [processLayers])
    · intro k s hk
      exact hmemo k s (by simpa [processLayers] using hk)
  | cons l rest ih =>
    cases hml : memoLookup memo (epochOf lpe l) with
    | some s0 =>
      have hunf : processLayers locate lpe memo (l :: rest) =
          ((processLayers locate lpe memo rest).1,
           (processLayers locate lpe memo rest).2.1,
           (l, s0) :: (processLayers locate lpe memo rest).2.2) := by
        simp [processLayers, getEpochAtxs, hml]
      rw [hunf]
      obtain ⟨hcount, hasgn, hfin⟩ := ih memo hmemo
      refine ⟨?_, ?_, hfin⟩
      · rw [hcount]
        by_cases hE : memoLookup memo E = none
        · congr 1
          simp only [List.mem_cons, eq_iff_iff]
          constructor
          · rintro ⟨⟨l2, hl2, rfl⟩, h2⟩
            exact ⟨⟨l2, Or.inr hl2, rfl⟩, h2⟩
          · rintro ⟨⟨l2, hl2, rfl⟩, h2⟩
            rcases hl2 with rfl | hl2
            · rw [hml] at hE
              exact absurd hE (by simp)
            · exact ⟨⟨l2, hl2, rfl⟩, h2⟩
        · rw [if_neg (by tauto), if_neg (by tauto)]
      · intro l2 s2 hls
        rcases List.mem_cons.mp hls with heq | hmem
        · obtain ⟨rfl, rfl⟩ := Prod.mk.inj heq
          exact hmemo _ _ hml
        · exact hasgn l2 s2 hmem
    | none =>
      have hunf : processLayers locate lpe memo (l :: rest) =
          ((processLayers locate lpe
              ((epochOf lpe l, locate (epochOf lpe l)) :: memo) rest).1,
           AtxEvent.atxFetch (epochOf lpe l) ::
             (processLayers locate lpe
               ((epochOf lpe l, locate (epochOf lpe l)) :: memo) rest).2.1,
           (l, locate (epochOf lpe l)) ::
             (processLayers locate lpe
               ((epochOf lpe l, locate (epochOf lpe l)) :: memo) rest).2.2) := by
        simp [processLayers, getEpochAtxs, hml]
      rw [hunf]
      have hmemo2 : ∀ k s,
          memoLookup ((epochOf lpe l, locate (epochOf lpe l)) :: memo) k = some s →
            s = locate k := by
        intro k s hk
        rw [memoLookup_insert] at hk
        by_cases hkl : epochOf lpe l = k
        · rw [if_pos hkl] at hk
          obtain rfl : locate (epochOf lpe l) = s := by injection hk
          rw [hkl]
        · rw [if_neg hkl] at hk
          exact hmemo k s hk
      obtain ⟨hcount, hasgn, hfin⟩ :=
        ih ((epochOf lpe l, locate (epochOf lpe l)) :: memo) hmemo2
      refine ⟨?_, ?_, hfin⟩
      · rw [List.count_cons]
        by_cases hlE : epochOf lpe l = E
        · subst hlE
          rw [memoLookup_insert, if_pos rfl] at hcount
          simp at hcount
          rw [hcount]
          have hex : (∃ l2, l2 ∈ l :: rest ∧ epochOf lpe l2 = epochOf lpe l) ∧
              memoLookup memo (epochOf lpe l) = none :=
            ⟨⟨l, List.mem_cons_self l rest, rfl⟩, hml⟩
          rw [if_pos hex]
          simp
        · rw [hcount, memoLookup_insert, if_neg hlE]
          have hbeq : (AtxEvent.atxFetch (epochOf lpe l) == AtxEvent.atxFetch E) = false := by
            simpa using hlE
          rw [hbeq]
          simp only [Bool.false_eq_true, if_false, Nat.add_zero]
          congr 1
          simp only [List.mem_cons, eq_iff_iff]
          constructor
          · rintro ⟨⟨l2, hl2, rfl⟩, h2⟩
            exact ⟨⟨l2, Or.inr hl2, rfl⟩, h2⟩
          · rintro ⟨⟨l2, hl2, rfl⟩, h2⟩
            rcases hl2 with rfl | hl2
            · exact absurd rfl hlE
            · exact ⟨⟨l2, hl2, rfl⟩, h2⟩
      · intro l2 s2 hls
        rcases List.mem_cons.mp hls with heq | hmem
        · obtain ⟨rfl, rfl⟩ := Prod.mk.inj heq
          rfl
        · exact hasgn l2 s2 hmem

/-- C5: starting with nothing memoized, a sync run over any list of layers
fetches the ATX set of an epoch `E` exactly once when some layer of `E` is in
the run and never otherwise, and every layer is served the one set the locator
yields for its epoch - layers of the same epoch reuse the single fetched set. -/
theorem epoch_atx_fetch_once (locate : Nat → List Nat) (lpe : Nat) (E : Nat)
    (layers : List Nat) :
    ((processLayers locate lpe [] layers).2.1.count (AtxEvent.atxFetch E) =
      if ∃ l, l ∈ layers ∧ epochOf lpe l = E then 1 else 0) ∧
    (∀ l s, (l, s) ∈ (processLayers locate lpe [] layers).2.2 →
      s = locate (epochOf lpe l)) := by
  have hsound := processLayers_sound locate lpe E layers []
    (by intro k s hk; exact absurd hk (by simp [memoLookup]))
  refine ⟨?_, hsound.2.1⟩
  rw [hsound.1]
  congr 1
  simp [memoLookup]

/-- Witness: spec 8 Scenario C shape - layers 6..9 with 3 layers per epoch;
layer 7 lies in epoch 2 and is served that epoch's located set. -/
theorem epoch_atx_fetch_once_witness :
    ([2, 12] : List Nat) = (fun e : Nat => [e, e + 10]) (epochOf 3 7) :=
  (epoch_atx_fetch_once (fun e : Nat => [e, e + 10]) 3 2 [6, 7, 8, 9]).2 7 [2, 12] (by decide)

/-! ## Syncer state machine

Modelled from the spec: the syncer package is not under the available sources -
only the sync test command (src/unnamed/part_001:206-217) that starts it,
calls `ForceSync` and polls the processed layer.  Spec 4.4: each tick computes
`target = min(latestLayerSeenOnGossip, now-derived layer)` and fetches layers
sequentially from `processedLayer+1` through `target`, advancing
`processedLayer` one layer at a time; a layer fetch failure halts forward
progress for that tick.  Spec 5: the Syncer is the single writer of
`processedLayer`; `ForceSync` is idempotent with a running tick - if a tick is
already in progress it joins it or is coalesced. -/

/-- The Syncer-owned `SyncState` (spec 3): the processed layer, the latest
layer seen on gossip, and whether a sync tick is currently in progress. -/
structure SyncerState where
  processedLayer : Nat
  latestGossip : Nat
  running : Bool
deriving DecidableEq

/-- Modelled from the spec: one tick's sequential layer loop.  From processed
layer `p` with `n` layers to go, fetch layer `p+1`; on success report it
Complete and continue, on failure halt this tick's progress. `fetchOk` is the
outcome of each layer fetch attempt (the network's behaviour this tick). -/
def advanceFrom (fetchOk : Nat → Bool) (p : Nat) : Nat → Nat × List Nat
  | 0 => (p, [])
  | n + 1 =>
    if fetchOk (p + 1) then
      let q := advanceFrom fetchOk (p + 1) n
      (q.1, (p + 1) :: q.2)
    else (p, [])

/-- Operations on the syncer: a tick entry (periodic or `ForceSync`) with the
clock-derived layer and the per-layer fetch outcomes, the end of a tick, and a
gossip report of a newly seen layer. -/
inductive SyncOp
  | tickStart (clock : Nat) (fetchOk : Nat → Bool)
  | tickEnd
  | gossip (layer : Nat)

/-- Modelled from the spec: one syncer operation.  A tick entry while a tick
is already in progress joins/coalesces (no work); otherwise the tick advances
`processedLayer` sequentially toward `min(latestGossip, clock)`, emitting the
layers it reports Complete, in order. -/
def syncStep (s : SyncerState) : SyncOp → SyncerState × List Nat
  | SyncOp.tickStart clock fetchOk =>
    if s.running then (s, [])
    else
      let target := min s.latestGossip clock
      let q := advanceFrom fetchOk s.processedLayer (target - s.processedLayer)
      ({ s with processedLayer := q.1, running := true }, q.2)
  | SyncOp.tickEnd => ({ s with running := false }, [])
  | SyncOp.gossip l => ({ s with latestGossip := max s.latestGossip l }, [])

/-- `ForceSync` re-enters the sync loop immediately; it goes through the same
guarded tick entry as the periodic tick (spec 5). -/
def ForceSync (s : SyncerState) (clock : Nat) (fetchOk : Nat → Bool) :
    SyncerState × List Nat :=
  syncStep s (SyncOp.tickStart clock fetchOk)

/-- The successive values of `processedLayer` an observer reads along a
schedule (one read before every operation and one at the end) - the loop at
src/unnamed/part_001:208-216 performs exactly such a read sequence. -/
def processedReads : SyncerState → List SyncOp → List Nat
  | s, [] => [s.processedLayer]
  | s, op :: ops => s.processedLayer :: processedReads (syncStep s op).1 ops

/-- A tick never moves the processed layer backward. -/
theorem advanceFrom_ge (f : Nat → Bool) (p : Nat) (n : Nat) :
    p ≤ (advanceFrom f p n).1 := by
  induction n generalizing p with
  | zero => simp [advanceFrom]
  | succ n ih =>
    by_cases hf : f (p + 1) = true
    · simp only [advanceFrom, hf, if_true]
      exact Nat.le_trans (Nat.le_succ p) (ih (p + 1))
    · simp [advanceFrom, hf]

/-- The layers a tick reports Complete are exactly the consecutive range from
`p+1` up to the tick's final processed layer. -/
theorem advanceFrom_range (f : Nat → Bool) (p n : Nat) :
    (advanceFrom f p n).2 = List.range' (p + 1) ((advanceFrom f p n).1 - p) := by
  induction n generalizing p with
  | zero => simp [advanceFrom]
  | succ n ih =>
    by_cases hf : f (p + 1) = true
    · simp only [advanceFrom, hf, if_true]
      rw [ih (p + 1)]
      have hge : p + 1 ≤ (advanceFrom f (p + 1) n).1 := advanceFrom_ge f (p + 1) n
      have hlen : (advanceFrom f (p + 1) n).1 - p = ((advanceFrom f (p + 1) n).1 - (p + 1)) + 1 := by
        omega
      rw [hlen, List.range'_succ]
    · simp [advanceFrom, hf]

/-- Element `i` of `List.range' s n` is `s + i`. -/
theorem range'_getD (s n i : Nat) (h : i < n) : (List.range' s n).getD i 0 = s + i := by
  induction n generalizing s i with
  | zero => omega
  | succ n ih =>
    rw [List.range'_succ]
    cases i with
    | zero => simp
    | succ i =>
      rw [List.getD_cons_succ]
      rw [ih (s + 1) i (by omega)]
      omega

/-- Members of `List.range' s n` are at least `s`. -/
theorem range'_mem_lower (s n L : Nat) (h : L ∈ List.range' s n) : s ≤ L := by
  induction n generalizing s with
  | zero => simp [List.range'] at h
  | succ n ih =>
    rw [List.range'_succ] at h
    rcases List.mem_cons.mp h with rfl | h2
    · exact Nat.le_refl L
    · exact Nat.le_trans (Nat.le_succ s) (ih (s + 1) h2)

/-- No syncer operation decreases `processedLayer`. -/
theorem syncStep_mono (s : SyncerState) (op : SyncOp) :
    s.processedLayer ≤ (syncStep s op).1.processedLayer := by
  cases op with
  | tickStart clock fetchOk =>
    by_cases hr : s.running = true
    · simp [syncStep, hr]
    · simp only [syncStep, Bool.not_eq_true] at hr ⊢
      rw [hr]
      simp only [Bool.false_eq_true, if_false]
      exact advanceFrom_ge fetchOk s.processedLayer _
  | tickEnd => exact Nat.le_refl _
  | gossip l => exact Nat.le_refl _

/-- C2: along every schedule of syncer operations, the sequence of reads of
`processedLayer` is non-decreasing - an observer polling the processed layer
while ticks, `ForceSync` calls and gossip updates run never sees the value
travel backward. -/
theorem processedLayer_monotone (s : SyncerState) (ops : List SyncOp) :
    List.Chain' (fun a b => a ≤ b) (processedReads s ops) := by
  induction ops generalizing s with
  | nil => simp [processedReads]
  | cons op ops ih =>
    rw [processedReads, List.chain'_cons']
    constructor
    · intro y hy
      have hhead : (processedReads (syncStep s op).1 ops).head? =
          some ((syncStep s op).1.processedLayer) := by
        cases ops <;> simp [processedReads]
      rw [hhead] at hy
      obtain rfl : (syncStep s op).1.processedLayer = y := by
        injection hy
      exact syncStep_mono s op
    · exact ih (syncStep s op).1

/-- C3: within one sync run (one tick), the layers reported Complete form the
consecutive ascending range starting at `processedLayer + 1`; consequently a
later layer is never reported Complete before an earlier one - whenever the
value at position `i` is smaller than at position `j`, position `i` comes
first.  Advancement is strictly sequential, one layer at a time. -/
theorem tick_completions_sequential (s : SyncerState) (clock : Nat) (fetchOk : Nat → Bool) :
    (syncStep s (SyncOp.tickStart clock fetchOk)).2 =
      List.range' (s.processedLayer + 1)
        ((syncStep s (SyncOp.tickStart clock fetchOk)).1.processedLayer - s.processedLayer) ∧
    (∀ i j : Nat, i < (syncStep s (SyncOp.tickStart clock fetchOk)).2.length →
      j < (syncStep s (SyncOp.tickStart clock fetchOk)).2.length →
      (syncStep s (SyncOp.tickStart clock fetchOk)).2.getD i 0 <
        (syncStep s (SyncOp.tickStart clock fetchOk)).2.getD j 0 → i < j) := by
  have hrange : (syncStep s (SyncOp.tickStart clock fetchOk)).2 =
      List.range' (s.processedLayer + 1)
        ((syncStep s (SyncOp.tickStart clock fetchOk)).1.processedLayer - s.processedLayer) := by
    by_cases hr : s.running = true
    · simp [syncStep, hr]
    · simp only [Bool.not_eq_true] at hr
      simp only [syncStep, hr, Bool.false_eq_true, if_false]
      exact advanceFrom_range fetchOk s.processedLayer _
  refine ⟨hrange, ?_⟩
  intro i j hi hj hlt
  rw [hrange] at hi hj hlt
  rw [List.length_range'] at hi hj
  rw [range'_getD _ _ i hi, range'_getD _ _ j hj] at hlt
  omega

/-- Witness: from processed layer 0 with target 5, the completion order is
1,2,3,4,5; layer 1 (position 0) precedes layer 2 (position 1). -/
theorem tick_completions_sequential_witness : (0 : Nat) < 1 :=
  (tick_completions_sequential ⟨0, 5, false⟩ 7 (fun _ => true)).2 0 1
    (by decide) (by decide) (by decide)

/-- C6: a `ForceSync` entered while a tick is already in progress is coalesced
with it - no duplicate sync is spawned, no event is emitted and the state is
untouched; and any tick entry only performs fetch work for layers strictly
beyond the current `processedLayer`, so work is never repeated for layers
already Complete. -/
theorem forceSync_coalesced (s : SyncerState) (clock : Nat) (fetchOk : Nat → Bool) :
    (s.running = true → ForceSync s clock fetchOk = (s, [])) ∧
    (∀ L, L ∈ (ForceSync s clock fetchOk).2 → s.processedLayer < L) := by
  constructor
  · intro hr
    simp [ForceSync, syncStep, hr]
  · intro L hL
    by_cases hr : s.running = true
    · simp [ForceSync, syncStep, hr] at hL
    · simp only [Bool.not_eq_true] at hr
      simp only [ForceSync, syncStep, hr, Bool.false_eq_true, if_false] at hL
      rw [advanceFrom_range] at hL
      have := range'_mem_lower _ _ _ hL
      omega

/-- Witness: calling `ForceSync` while a tick is running changes nothing. -/
theorem forceSync_coalesced_witness :
    ForceSync ⟨3, 10, true⟩ 9 (fun _ => true) = (⟨3, 10, true⟩, []) :=
  (forceSync_coalesced ⟨3, 10, true⟩ 9 (fun _ => true)).1 rfl
